import Mathlib

/-!
Verification of the attribute parsing, interpretation and printing core of
`src/attr.rs` (the `syn` crate's `Attribute` module).

The token model (proc-macro2's `TokenTree`/`TokenNode`), the literal model
(`Lit`), the path model (`Path`) and the `synom` combinators live outside the
single source file; they are modelled here from the specification's boundary
description (section 6 of the spec).  Spans ("position metadata") carry no
semantic information in the source — they only decorate output tokens — so the
embedding drops them; field-wise equality ignoring position metadata becomes
plain equality of the embedded values.
-/

namespace Syn

/-- proc-macro2 `Delimiter`. -/
inductive Delim where
  | Parenthesis
  | Brace
  | Bracket
  | NoDelim
deriving DecidableEq

/-- proc-macro2 `Spacing` of a punctuation token. -/
inductive Spacing where
  | Alone
  | Joint
deriving DecidableEq

mutual
/-- proc-macro2 `TokenNode` (a `TokenTree` with its span dropped):
a delimited group holding a nested token sequence, an identifier (`Term`),
a one-character punctuation with spacing (`Op`), or a literal carried as its
rendered text (`Literal`). -/
inductive Tok where
  | Group : Delim → TokList → Tok
  | Term : String → Tok
  | Op : Char → Spacing → Tok
  | Lit : String → Tok

/-- A token sequence (proc-macro2 `TokenStream`, materialized). -/
inductive TokList where
  | nil : TokList
  | cons : Tok → TokList → TokList
end

mutual
/-- Number of atomic tokens in a token tree, counting a group wrapper as one. -/
def tokSize : Tok → Nat
  | .Group _ inner => 1 + tokListSize inner
  | _ => 1

/-- Total size of a token sequence. -/
def tokListSize : TokList → Nat
  | .nil => 0
  | .cons t ts => tokSize t + tokListSize ts
end

/-- Conversion from a Lean list literal, for readable concrete inputs. -/
def tl : List Tok → TokList
  | [] => .nil
  | t :: ts => .cons t (tl ts)

/-- Concatenation of token sequences. -/
def tlAppend : TokList → TokList → TokList
  | .nil, ys => ys
  | .cons x xs, ys => .cons x (tlAppend xs ys)

/-- Modelled from the spec: the literal-value model (`Lit` in the repository's
`lit.rs`, not part of the provided source).  Only the distinction the core
needs is kept: a string literal (stored by its unescaped string value) versus
any other literal (stored by its rendered text). -/
inductive Lit where
  | Str : String → Lit
  | Other : String → Lit
deriving DecidableEq

/-- Modelled from the spec: escaping of one character inside a quoted string
literal, as performed by proc-macro2's `Literal::string`. -/
def escapeChar (c : Char) : List Char :=
  if c = '"' ∨ c = '\\' then ['\\', c] else [c]

/-- Escape every character of a string body. -/
def escapeChars : List Char → List Char
  | [] => []
  | c :: cs => escapeChar c ++ escapeChars cs

/-- Modelled from the spec: `Literal::string(s)` — the rendered text of a
string literal whose value is `s`: a double quote, the escaped body, and a
closing double quote. -/
def litStringRendered (s : String) : String :=
  ⟨'"' :: (escapeChars s.data ++ ['"'])⟩

/-- Modelled from the spec: unescaping the rendered body of a string literal
up to and including its closing quote; fails on malformed input. -/
def unescapeBody : List Char → Option (List Char)
  | [] => none
  | c :: rest =>
    if c = '\\' then
      match rest with
      | [] => none
      | c2 :: rest2 => (unescapeBody rest2).map (fun v => c2 :: v)
    else if c = '"' then
      match rest with
      | [] => some []
      | _ :: _ => none
    else (unescapeBody rest).map (fun v => c :: v)

/-- Modelled from the spec: `Lit::new(literal, span)` of the repository's
`lit.rs` — classify a literal token by its rendered text; a leading double
quote makes it a string literal carrying its unescaped value. -/
def Lit.new (rendered : String) : Lit :=
  match rendered.data with
  | '"' :: rest =>
    match unescapeBody rest with
    | some v => .Str ⟨v⟩
    | none => .Other rendered
  | _ => .Other rendered

mutual
/-- `Meta` of `src/attr.rs`: the structured shape of an interpreted
attribute (`Word`, `List`, `NameValue`).  The `Punctuated` container of a
list's elements is modelled as the plain sequence of its values: its comma
tokens hold only spans. -/
inductive Meta where
  | Word : String → Meta
  | List : String → List NestedMeta → Meta
  | NameValue : String → Lit → Meta

/-- `NestedMeta` of `src/attr.rs`: one element of a `Meta::List` body. -/
inductive NestedMeta where
  | Meta : Meta → NestedMeta
  | Literal : Lit → NestedMeta
end

/-- Result of a fallible computation that may also panic (a violated
`assert!`).  The `outOfFuel` constructor is an artifact of the fuel-indexed
encoding of the source's recursion; it is proved unreachable for the fuel the
top-level wrappers supply. -/
inductive PRes (α : Type) where
  | panic : PRes α
  | outOfFuel : PRes α
  | fail : PRes α
  | ok : α → PRes α
deriving DecidableEq

mutual
/-- Fuel-indexed embedding of `nested_meta_item_from_tokens`
(src/attr.rs lines 144-191): parse one nested meta item from the front of a
token slice, returning it with the remaining slice.  An empty slice violates
the function's `assert!(!tts.is_empty())`, modelled as `.panic`. -/
def nestedF : Nat → TokList → PRes (NestedMeta × TokList)
  | 0, _ => .outOfFuel
  | _ + 1, .nil => .panic
  | fuel + 1, .cons t rest =>
    match t with
    | .Lit l => .ok (.Literal (Lit.new l), rest)
    | .Term s =>
      match rest with
      | .cons (.Op '=' .Alone) (.cons (.Lit l) rest3) =>
        .ok (.Meta (.NameValue s (Lit.new l)), rest3)
      | .cons (.Group .Parenthesis innerTts) rest2 =>
        match listLoopF fuel true innerTts with
        | .ok items => .ok (.Meta (.List s items), rest2)
        | .panic => .panic
        | .outOfFuel => .outOfFuel
        | .fail => .fail
      | _ => .ok (.Meta (.Word s), rest)
    | _ => .fail

/-- Fuel-indexed embedding of `list_of_nested_meta_items_from_tokens`
(src/attr.rs lines 193-225).  The loop's `first` flag is the `Bool`
parameter; each iteration of the source loop is one recursive call.  A
non-first iteration demands a leading comma with `Alone` spacing, and a comma
that turns out to be the last token ends the loop successfully. -/
def listLoopF : Nat → Bool → TokList → PRes (List NestedMeta)
  | 0, _, _ => .outOfFuel
  | fuel + 1, first, tts =>
    match tts with
    | .nil => .ok []
    | .cons t rest =>
      match first with
      | true =>
        match nestedF fuel (.cons t rest) with
        | .ok (n, r) =>
          match listLoopF fuel false r with
          | .ok items => .ok (n :: items)
          | .panic => .panic
          | .outOfFuel => .outOfFuel
          | .fail => .fail
        | .panic => .panic
        | .outOfFuel => .outOfFuel
        | .fail => .fail
      | false =>
        match t with
        | .Op ',' .Alone =>
          match rest with
          | .nil => .ok []
          | .cons _ _ =>
            match nestedF fuel rest with
            | .ok (n, r) =>
              match listLoopF fuel false r with
              | .ok items => .ok (n :: items)
              | .panic => .panic
              | .outOfFuel => .outOfFuel
              | .fail => .fail
            | .panic => .panic
            | .outOfFuel => .outOfFuel
            | .fail => .fail
        | _ => .fail
end

/-- Sufficient fuel for `nestedF` on `tts`. -/
def nestedFuel (tts : TokList) : Nat := 2 * tokListSize tts + 1

/-- Sufficient fuel for `listLoopF` on `tts`. -/
def listFuel (tts : TokList) : Nat := 2 * tokListSize tts + 2

/-- `nested_meta_item_from_tokens` of src/attr.rs, at adequate fuel. -/
def nested_meta_item_from_tokens (tts : TokList) : PRes (NestedMeta × TokList) :=
  nestedF (nestedFuel tts) tts

/-- One state of the source's comma-separated-list loop: `first = true` is
the loop entry, `first = false` expects a separator before the next item. -/
def list_loop (first : Bool) (tts : TokList) : PRes (List NestedMeta) :=
  listLoopF (listFuel tts) first tts

/-- `list_of_nested_meta_items_from_tokens` of src/attr.rs: the full
comma-separated nested-meta list grammar. -/
def list_of_nested_meta_items_from_tokens (tts : TokList) : PRes (List NestedMeta) :=
  list_loop true tts

/-- `AttrStyle` of src/attr.rs; the `Token![!]` of the inner style holds only
a span and is dropped. -/
inductive AttrStyle where
  | Outer
  | Inner
deriving DecidableEq

/-- Modelled from the spec: `Path` of the repository's `path.rs` — an
optionally leading-separator-prefixed, non-empty sequence of identifier
segments (mod-style segments carry no generic arguments). -/
structure Path where
  leading_colon : Bool
  segments : List String
deriving DecidableEq

/-- `Attribute` of src/attr.rs with its span-only fields (`pound_token`,
`bracket_token`, the inner style's bang token) dropped. -/
structure Attribute where
  style : AttrStyle
  path : Path
  tts : TokList
  is_sugared_doc : Bool

/-- The name-value check of `interpret_meta` (src/attr.rs lines 128-138):
the body is exactly two tokens, a bare `=` with `Alone` spacing followed by a
literal; anything else falls to the final `None` (line 140). -/
def nameValueCheck (name : String) (tts : TokList) : PRes Meta :=
  match tts with
  | .cons (.Op '=' .Alone) (.cons (.Lit l) .nil) =>
    .ok (.NameValue name (Lit.new l))
  | _ => .fail

/-- `Attribute::interpret_meta` (src/attr.rs lines 102-141): single-segment
path required; empty body gives `Word`; a body that is exactly one
parenthesized group is tried as a nested-meta list, falling through to the
name-value check when the list grammar fails. -/
def interpret_meta (a : Attribute) : PRes Meta :=
  match a.path.segments with
  | [name] =>
    match a.tts with
    | .nil => .ok (.Word name)
    | .cons (.Group .Parenthesis ts) .nil =>
      match list_of_nested_meta_items_from_tokens ts with
      | .ok items => .ok (.List name items)
      | .panic => .panic
      | .outOfFuel => .outOfFuel
      | .fail => nameValueCheck name a.tts
    | _ => nameValueCheck name a.tts
  | _ => .fail

/-- Modelled from the spec: `str::starts_with` — textual prefix match on a
literal's rendered form. -/
def strStartsWith (s pre : String) : Bool :=
  pre.data.isPrefixOf s.data

/-- The `Comment` style selector of src/attr.rs (lines 460-463). -/
inductive Comment where
  | Inner
  | Outer

/-- The `ok` check of `lit_doc_comment` (src/attr.rs lines 469-472): does the
literal's rendered text begin with the style's doc-comment prefix? -/
def docCommentOk (style : Comment) (s : String) : Bool :=
  match style with
  | .Inner => strStartsWith s "//!" || strStartsWith s "/*!"
  | .Outer => strStartsWith s "///" || strStartsWith s "/**"

/-- `lit_doc_comment` (src/attr.rs lines 465-487): succeed when the cursor's
head is a literal token whose rendered text begins with the style's doc
prefix, producing a string-literal token quoting the entire rendered text. -/
def lit_doc_comment (input : TokList) (style : Comment) : Option (Tok × TokList) :=
  match input with
  | .cons (.Lit s) rest =>
    if docCommentOk style s then some (.Lit (litStringRendered s), rest) else none
  | _ => none

/-- Modelled from the spec: the repeated `:: segment` tail of a mod-style
path parse; stops (leaving the input untouched) as soon as the input does not
continue with a separator followed by an identifier. -/
def moreSegs : TokList → (List String × TokList)
  | .cons (.Op ':' .Joint) (.cons (.Op ':' .Alone) (.cons (.Term s) r)) =>
    let (segs, r2) := moreSegs r
    (s :: segs, r2)
  | r => ([], r)

/-- Modelled from the spec: `Path::parse_mod_style` of the repository's
`path.rs` — an optional leading `::`, then a non-empty `::`-separated
sequence of identifier segments, parsed greedily. -/
def parse_mod_style (input : TokList) : Option (Path × TokList) :=
  match input with
  | .cons (.Op ':' .Joint) (.cons (.Op ':' .Alone) rest) =>
    match rest with
    | .cons (.Term s) r =>
      let (segs, r2) := moreSegs r
      some ({ leading_colon := true, segments := s :: segs }, r2)
    | _ => none
  | .cons (.Term s) r =>
    let (segs, r2) := moreSegs r
    some ({ leading_colon := false, segments := s :: segs }, r2)
  | _ => none

/-- The `:: segment` pairs printed after a path's first segment; a printed
`::` separator is a joint colon followed by an alone colon. -/
def printSegsTail : List String → TokList
  | [] => .nil
  | s :: ss =>
    .cons (.Op ':' .Joint) (.cons (.Op ':' .Alone) (.cons (.Term s) (printSegsTail ss)))

/-- Modelled from the spec: `Path::to_tokens` — the leading separator when
present, then the segments interleaved with `::` separators. -/
def printPath (p : Path) : TokList :=
  let segs : TokList :=
    match p.segments with
    | [] => .nil
    | s :: ss => .cons (.Term s) (printSegsTail ss)
  if p.leading_colon then .cons (.Op ':' .Joint) (.cons (.Op ':' .Alone) segs) else segs

/-- The path of a desugared doc comment: the single identifier `doc`. -/
def docPath : Path := { leading_colon := false, segments := ["doc"] }

/-- The attribute built by the doc-comment branch of the parsers
(src/attr.rs lines 400-416 and 440-456): path `doc`, body `= <lit>`,
`is_sugared_doc` set. -/
def docAttribute (style : AttrStyle) (lit : Tok) : Attribute :=
  { style := style
    path := docPath
    tts := .cons (.Op '=' .Alone) (.cons lit .nil)
    is_sugared_doc := true }

/-- The first alternative of `Attribute::parse_outer` (src/attr.rs lines
420-438): `#` followed by a bracketed group holding a mod-style path and the
remaining body tokens. -/
def parse_outer_bracket (input : TokList) : Option (Attribute × TokList) :=
  match input with
  | .cons (.Op '#' _) (.cons (.Group .Bracket inner) rest2) =>
    match parse_mod_style inner with
    | some (p, tts) =>
      some ({ style := .Outer, path := p, tts := tts, is_sugared_doc := false }, rest2)
    | none => none
  | _ => none

/-- `Attribute::parse_outer` (src/attr.rs lines 419-457): the bracketed
alternative, and on its failure the doc-comment alternative. -/
def parse_outer (input : TokList) : Option (Attribute × TokList) :=
  match parse_outer_bracket input with
  | some r => some r
  | none =>
    match lit_doc_comment input .Outer with
    | some (lit, rest) => some (docAttribute .Outer lit, rest)
    | none => none

/-- The first alternative of `Attribute::parse_inner` (src/attr.rs lines
379-398): `#`, `!`, then a bracketed group holding a mod-style path and the
remaining body tokens. -/
def parse_inner_bracket (input : TokList) : Option (Attribute × TokList) :=
  match input with
  | .cons (.Op '#' _) (.cons (.Op '!' _) (.cons (.Group .Bracket inner) rest2)) =>
    match parse_mod_style inner with
    | some (p, tts) =>
      some ({ style := .Inner, path := p, tts := tts, is_sugared_doc := false }, rest2)
    | none => none
  | _ => none

/-- `Attribute::parse_inner` (src/attr.rs lines 378-417): like the outer
parser but with a `!` after the `#`, and the inner doc-comment prefixes. -/
def parse_inner (input : TokList) : Option (Attribute × TokList) :=
  match parse_inner_bracket input with
  | some r => some r
  | none =>
    match lit_doc_comment input .Inner with
    | some (lit, rest) => some (docAttribute .Inner lit, rest)
    | none => none

/-- The non-sugared emission of `ToTokens for Attribute` (src/attr.rs lines
513-520): the `#` marker, the `!` marker for the inner style, then a bracket
group surrounding the printed path followed by the body tokens verbatim. -/
def generalForm (a : Attribute) : TokList :=
  let body : Tok := .Group .Bracket (tlAppend (printPath a.path) a.tts)
  match a.style with
  | .Outer => .cons (.Op '#' .Alone) (.cons body .nil)
  | .Inner => .cons (.Op '#' .Alone) (.cons (.Op '!' .Alone) (.cons body .nil))

/-- `ToTokens for Attribute` (src/attr.rs lines 496-521): a sugared doc
attribute whose interpretation is `NameValue` named `doc` with a string
literal is re-emitted as a single doc-comment literal token rendering the
stored string verbatim (`Literal::doccomment`); everything else is emitted in
the general bracketed form.  `interpret_meta` never panics (proved below), so
the impossible `panic`/`outOfFuel` interpretation results are routed to the
general form. -/
def Attribute.to_tokens (a : Attribute) : TokList :=
  if a.is_sugared_doc then
    match interpret_meta a with
    | .ok (.NameValue n l) =>
      if n = "doc" then
        match l with
        | .Str comment => .cons (.Lit comment) .nil
        | .Other _ => generalForm a
      else generalForm a
    | _ => generalForm a
  else generalForm a

/-- The token body of the spec's trailing-comma example
`foo(bar = 1, baz(qux), "lit",)`. -/
def c6Input : TokList :=
  tl [.Term "bar", .Op '=' .Alone, .Lit "1", .Op ',' .Alone,
      .Term "baz", .Group .Parenthesis (tl [.Term "qux"]), .Op ',' .Alone,
      .Lit "\"lit\"", .Op ',' .Alone]

/-- The elements the trailing-comma example parses to. -/
def c6Items : List NestedMeta :=
  [.Meta (.NameValue "bar" (.Other "1")),
   .Meta (.List "baz" [.Meta (.Word "qux")]),
   .Literal (.Str "lit")]

@[simp] theorem tokListSize_nil : tokListSize .nil = 0 := rfl

@[simp] theorem tokListSize_cons (t : Tok) (ts : TokList) :
    tokListSize (.cons t ts) = tokSize t + tokListSize ts := rfl

@[simp] theorem tokSize_group (d : Delim) (inner : TokList) :
    tokSize (.Group d inner) = 1 + tokListSize inner := rfl

@[simp] theorem tokSize_term (s : String) : tokSize (.Term s) = 1 := rfl

@[simp] theorem tokSize_op (c : Char) (sp : Spacing) : tokSize (.Op c sp) = 1 := rfl

@[simp] theorem tokSize_lit (s : String) : tokSize (.Lit s) = 1 := rfl

/-- A successful single-item parse consumes at least one token. -/
theorem nestedF_ok_size {g : Nat} {ts : TokList} {n : NestedMeta} {r : TokList}
    (h : nestedF g ts = .ok (n, r)) : tokListSize r < tokListSize ts := by
  match g, ts with
  | 0, ts => simp [nestedF] at h
  | g + 1, .nil => simp [nestedF] at h
  | g + 1, .cons t rest =>
    simp only [nestedF] at h
    repeat' split at h
    all_goals simp_all
    all_goals omega

/-- Joint fuel-irrelevance: any two fuels adequate for the input give the
same result, for both mutually recursive parsers. -/
theorem fuelIrrelAux : ∀ N : Nat,
    (∀ f g tts, f + g ≤ N → nestedFuel tts ≤ f → nestedFuel tts ≤ g →
      nestedF f tts = nestedF g tts) ∧
    (∀ f g first tts, f + g ≤ N → listFuel tts ≤ f → listFuel tts ≤ g →
      listLoopF f first tts = listLoopF g first tts) := by
  intro N
  induction N with
  | zero =>
    refine ⟨fun f g tts hN hf hg => absurd hf ?_, fun f g first tts hN hf hg => absurd hf ?_⟩
    · simp only [nestedFuel]; omega
    · simp only [listFuel]; omega
  | succ N ih =>
    obtain ⟨ihN, ihL⟩ := ih
    constructor
    · intro f g tts hN hf hg
      obtain ⟨f', rfl⟩ : ∃ k, f = k + 1 := ⟨f - 1, by simp only [nestedFuel] at hf; omega⟩
      obtain ⟨g', rfl⟩ : ∃ k, g = k + 1 := ⟨g - 1, by simp only [nestedFuel] at hg; omega⟩
      cases tts with
      | nil => rfl
      | cons t rest =>
        simp only [nestedFuel, tokListSize_cons] at hf hg
        simp only [nestedF]
        split
        · rfl
        · split
          · rfl
          · rename_i inner rest2
            have hl : listLoopF f' true inner = listLoopF g' true inner := by
              apply ihL f' g' true inner
              · omega
              · simp only [listFuel]
                simp only [tokSize_term, tokSize_group, tokListSize_cons] at hf
                omega
              · simp only [listFuel]
                simp only [tokSize_term, tokSize_group, tokListSize_cons] at hg
                omega
            rw [hl]
          · rfl
        · rfl
    · intro f g first tts hN hf hg
      obtain ⟨f', rfl⟩ : ∃ k, f = k + 1 := ⟨f - 1, by simp only [listFuel] at hf; omega⟩
      obtain ⟨g', rfl⟩ : ∃ k, g = k + 1 := ⟨g - 1, by simp only [listFuel] at hg; omega⟩
      cases tts with
      | nil => rfl
      | cons t rest =>
        simp only [listFuel, tokListSize_cons] at hf hg
        have htpos : 1 ≤ tokSize t := by cases t <;> simp
        have hstep : ∀ ts : TokList, tokListSize ts ≤ tokSize t + tokListSize rest →
            (match nestedF f' ts with
              | .ok (n, r) =>
                (match listLoopF f' false r with
                  | .ok items => PRes.ok (n :: items)
                  | .panic => .panic
                  | .outOfFuel => .outOfFuel
                  | .fail => .fail)
              | .panic => (.panic : PRes (List NestedMeta))
              | .outOfFuel => .outOfFuel
              | .fail => .fail) =
            (match nestedF g' ts with
              | .ok (n, r) =>
                (match listLoopF g' false r with
                  | .ok items => PRes.ok (n :: items)
                  | .panic => .panic
                  | .outOfFuel => .outOfFuel
                  | .fail => .fail)
              | .panic => .panic
              | .outOfFuel => .outOfFuel
              | .fail => .fail) := by
          intro ts hts
          have hn : nestedF f' ts = nestedF g' ts := by
            apply ihN f' g' ts (by omega) <;> (simp only [nestedFuel]; omega)
          rw [hn]
          cases hres : nestedF g' ts with
          | ok p =>
            obtain ⟨n, r⟩ := p
            have hr : tokListSize r < tokListSize ts := nestedF_ok_size hres
            have hl : listLoopF f' false r = listLoopF g' false r := by
              apply ihL f' g' false r (by omega) <;> (simp only [listFuel]; omega)
            simp only [hl]
          | panic => rfl
          | outOfFuel => rfl
          | fail => rfl
        cases first with
        | true =>
          simp only [listLoopF]
          exact hstep (.cons t rest) (by simp)
        | false =>
          simp only [listLoopF]
          split
          · split
            · rfl
            · exact hstep _ (by omega)
          · rfl

/-- Any adequate fuel computes the canonical single-item parse. -/
theorem nestedF_eq_canonical (f : Nat) (tts : TokList) (h : nestedFuel tts ≤ f) :
    nestedF f tts = nested_meta_item_from_tokens tts :=
  (fuelIrrelAux (f + nestedFuel tts)).1 f (nestedFuel tts) tts (le_refl _) h (le_refl _)

/-- Any adequate fuel computes the canonical list-loop state. -/
theorem listLoopF_eq_canonical (f : Nat) (first : Bool) (tts : TokList) (h : listFuel tts ≤ f) :
    listLoopF f first tts = list_loop first tts :=
  (fuelIrrelAux (f + listFuel tts)).2 f (listFuel tts) first tts (le_refl _) h (le_refl _)

/-- Wrapper form of `nestedF_ok_size`. -/
theorem nested_ok_size {ts : TokList} {n : NestedMeta} {r : TokList}
    (h : nested_meta_item_from_tokens ts = .ok (n, r)) :
    tokListSize r < tokListSize ts :=
  nestedF_ok_size h

theorem nested_eq_group (s : String) (inner r2 : TokList) :
    nested_meta_item_from_tokens (.cons (.Term s) (.cons (.Group .Parenthesis inner) r2)) =
      (match list_of_nested_meta_items_from_tokens inner with
        | .ok items => .ok (.Meta (.List s items), r2)
        | .panic => .panic
        | .outOfFuel => .outOfFuel
        | .fail => .fail) := by
  have hb : listFuel inner ≤
      2 * tokListSize (TokList.cons (Tok.Term s) (TokList.cons (Tok.Group .Parenthesis inner) r2)) := by
    simp only [listFuel, tokListSize_cons, tokSize_term, tokSize_group]
    omega
  show (match listLoopF
        (2 * tokListSize (TokList.cons (Tok.Term s) (TokList.cons (Tok.Group .Parenthesis inner) r2)))
        true inner with
      | .ok items => PRes.ok (NestedMeta.Meta (.List s items), r2)
      | .panic => .panic
      | .outOfFuel => .outOfFuel
      | .fail => .fail) = _
  rw [listLoopF_eq_canonical _ true inner hb]
  rfl

theorem list_loop_true_cons (t : Tok) (rest : TokList) :
    list_loop true (.cons t rest) =
      (match nested_meta_item_from_tokens (.cons t rest) with
        | .ok (n, r) =>
          (match list_loop false r with
            | .ok items => .ok (n :: items)
            | .panic => .panic
            | .outOfFuel => .outOfFuel
            | .fail => .fail)
        | .panic => .panic
        | .outOfFuel => .outOfFuel
        | .fail => .fail) := by
  show (match nested_meta_item_from_tokens (.cons t rest) with
      | .ok (n, r) =>
        (match listLoopF (2 * tokListSize (TokList.cons t rest) + 1) false r with
          | .ok items => PRes.ok (n :: items)
          | .panic => .panic
          | .outOfFuel => .outOfFuel
          | .fail => .fail)
      | .panic => .panic
      | .outOfFuel => .outOfFuel
      | .fail => .fail) = _
  cases hres : nested_meta_item_from_tokens (.cons t rest) with
  | ok p =>
    obtain ⟨n, r⟩ := p
    have hr : tokListSize r < tokListSize (.cons t rest) := nested_ok_size hres
    dsimp only
    rw [listLoopF_eq_canonical (2 * tokListSize (TokList.cons t rest) + 1) false r
      (by simp only [listFuel]; omega)]
  | panic => rfl
  | outOfFuel => rfl
  | fail => rfl

theorem list_loop_false_comma (rest : TokList) :
    list_loop false (.cons (.Op ',' .Alone) rest) =
      (match rest with
        | .nil => .ok []
        | .cons _ _ =>
          (match nested_meta_item_from_tokens rest with
            | .ok (n, r) =>
              (match list_loop false r with
                | .ok items => .ok (n :: items)
                | .panic => .panic
                | .outOfFuel => .outOfFuel
                | .fail => .fail)
            | .panic => .panic
            | .outOfFuel => .outOfFuel
            | .fail => .fail)) := by
  cases rest with
  | nil => rfl
  | cons t2 r2 =>
    show (match nestedF
          (2 * tokListSize (TokList.cons (Tok.Op ',' .Alone) (TokList.cons t2 r2)) + 1)
          (TokList.cons t2 r2) with
        | .ok (n, r) =>
          (match listLoopF
              (2 * tokListSize (TokList.cons (Tok.Op ',' .Alone) (TokList.cons t2 r2)) + 1)
              false r with
            | .ok items => PRes.ok (n :: items)
            | .panic => .panic
            | .outOfFuel => .outOfFuel
            | .fail => .fail)
        | .panic => .panic
        | .outOfFuel => .outOfFuel
        | .fail => .fail) = _
    rw [nestedF_eq_canonical
      (2 * tokListSize (TokList.cons (Tok.Op ',' .Alone) (TokList.cons t2 r2)) + 1)
      (TokList.cons t2 r2)
      (by simp only [nestedFuel, tokListSize_cons, tokSize_op]; omega)]
    cases hres : nested_meta_item_from_tokens (TokList.cons t2 r2) with
    | ok p =>
      obtain ⟨n, r⟩ := p
      have hr : tokListSize r < tokListSize (TokList.cons t2 r2) := nested_ok_size hres
      dsimp only
      rw [listLoopF_eq_canonical
        (2 * tokListSize (TokList.cons (Tok.Op ',' .Alone) (TokList.cons t2 r2)) + 1) false r
        (by simp only [listFuel, tokListSize_cons, tokSize_op] at hr ⊢; omega)]
    | panic => rfl
    | outOfFuel => rfl
    | fail => rfl

theorem list_loop_false_other (t : Tok) (rest : TokList) (h : t ≠ .Op ',' .Alone) :
    list_loop false (.cons t rest) = .fail := by
  show listLoopF ((2 * tokListSize (TokList.cons t rest) + 1) + 1) false (.cons t rest) = .fail
  simp only [listLoopF]

theorem noPanicAux : ∀ f : Nat,
    (∀ tts, nestedFuel tts ≤ f → tts ≠ .nil →
      (∃ x, nestedF f tts = .ok x) ∨ nestedF f tts = .fail) ∧
    (∀ first tts, listFuel tts ≤ f →
      (∃ x, listLoopF f first tts = .ok x) ∨ listLoopF f first tts = .fail) := by
  intro f
  induction f with
  | zero =>
    refine ⟨fun tts hf _ => absurd hf ?_, fun first tts hf => absurd hf ?_⟩
    · simp only [nestedFuel]; omega
    · simp only [listFuel]; omega
  | succ f ih =>
    obtain ⟨ihN, ihL⟩ := ih
    constructor
    · intro tts hf hne
      cases tts with
      | nil => exact absurd rfl hne
      | cons t rest =>
        simp only [nestedFuel, tokListSize_cons] at hf
        simp only [nestedF]
        split
        · exact Or.inl ⟨_, rfl⟩
        · split
          · exact Or.inl ⟨_, rfl⟩
          · rename_i inner rest2
            have hb : listFuel inner ≤ f := by
              simp only [listFuel]
              simp only [tokSize_term, tokSize_group, tokListSize_cons] at hf
              omega
            rcases ihL true inner hb with ⟨x, hx⟩ | hx
            · rw [hx]; exact Or.inl ⟨_, rfl⟩
            · rw [hx]; exact Or.inr rfl
          · exact Or.inl ⟨_, rfl⟩
        · exact Or.inr rfl
    · intro first tts hf
      cases tts with
      | nil => exact Or.inl ⟨[], rfl⟩
      | cons t rest =>
        simp only [listFuel, tokListSize_cons] at hf
        have htpos : 1 ≤ tokSize t := by cases t <;> simp
        have hstep : ∀ ts : TokList, ts ≠ .nil → tokListSize ts ≤ tokSize t + tokListSize rest →
            (∃ x, (match nestedF f ts with
              | .ok (n, r) =>
                (match listLoopF f false r with
                  | .ok items => PRes.ok (n :: items)
                  | .panic => .panic
                  | .outOfFuel => .outOfFuel
                  | .fail => .fail)
              | .panic => (.panic : PRes (List NestedMeta))
              | .outOfFuel => .outOfFuel
              | .fail => .fail) = .ok x) ∨
            (match nestedF f ts with
              | .ok (n, r) =>
                (match listLoopF f false r with
                  | .ok items => PRes.ok (n :: items)
                  | .panic => .panic
                  | .outOfFuel => .outOfFuel
                  | .fail => .fail)
              | .panic => (.panic : PRes (List NestedMeta))
              | .outOfFuel => .outOfFuel
              | .fail => .fail) = .fail := by
          intro ts hne hts
          have hbn : nestedFuel ts ≤ f := by simp only [nestedFuel]; omega
          rcases ihN ts hbn hne with ⟨⟨n, r⟩, hx⟩ | hx
          · rw [hx]
            dsimp only
            have hr : tokListSize r < tokListSize ts := nestedF_ok_size hx
            have hbl : listFuel r ≤ f := by simp only [listFuel]; omega
            rcases ihL false r hbl with ⟨y, hy⟩ | hy
            · rw [hy]; exact Or.inl ⟨_, rfl⟩
            · rw [hy]; exact Or.inr rfl
          · rw [hx]; exact Or.inr rfl
        cases first with
        | true =>
          simp only [listLoopF]
          exact hstep (.cons t rest) (by intro hc; cases hc) (by simp)
        | false =>
          simp only [listLoopF]
          split
          · split
            · exact Or.inl ⟨[], rfl⟩
            · exact hstep _ (by intro hc; cases hc) (by omega)
          · exact Or.inr rfl

theorem nested_eq_nil : nested_meta_item_from_tokens .nil = .panic := rfl

theorem list_loop_nil (first : Bool) : list_loop first .nil = .ok [] := rfl

theorem list_of_ok_or_fail (ts : TokList) :
    (∃ items, list_of_nested_meta_items_from_tokens ts = .ok items) ∨
      list_of_nested_meta_items_from_tokens ts = .fail :=
  (noPanicAux (listFuel ts)).2 true ts (le_refl _)

theorem nameValueCheck_ok_or_fail (name : String) (tts : TokList) :
    (∃ m, nameValueCheck name tts = .ok m) ∨ nameValueCheck name tts = .fail := by
  unfold nameValueCheck
  split
  · exact Or.inl ⟨_, rfl⟩
  · exact Or.inr rfl

theorem interpret_meta_group (st : AttrStyle) (lc : Bool) (name : String)
    (ts : TokList) (sugar : Bool) :
    interpret_meta ⟨st, ⟨lc, [name]⟩, .cons (.Group .Parenthesis ts) .nil, sugar⟩ =
      (match list_of_nested_meta_items_from_tokens ts with
        | .ok items => .ok (.List name items)
        | .panic => .panic
        | .outOfFuel => .outOfFuel
        | .fail => nameValueCheck name (.cons (.Group .Parenthesis ts) .nil)) := rfl

/-- C2: `interpret_meta` is total on every attribute: it returns a
structured shape or declines, and in particular the non-empty-slice
assertion of `nested_meta_item_from_tokens` is never violated on any call
reachable from it (no `.panic`, and no fuel exhaustion either). -/
theorem c2_interpret_meta_totality (a : Attribute) :
    (∃ m, interpret_meta a = .ok m) ∨ interpret_meta a = .fail := by
  obtain ⟨st, ⟨lc, segs⟩, tts, sugar⟩ := a
  match segs with
  | [] => exact Or.inr rfl
  | _ :: _ :: _ => exact Or.inr rfl
  | [name] =>
    match tts with
    | .nil => exact Or.inl ⟨_, rfl⟩
    | .cons (.Group .Parenthesis ts) .nil =>
      rw [interpret_meta_group]
      rcases list_of_ok_or_fail ts with ⟨items, hx⟩ | hx
      · rw [hx]; exact Or.inl ⟨_, rfl⟩
      · rw [hx]; exact nameValueCheck_ok_or_fail name _
    | .cons (.Group .Parenthesis g) (.cons t2 r2) =>
      exact nameValueCheck_ok_or_fail name (.cons (.Group .Parenthesis g) (.cons t2 r2))
    | .cons (.Group .Brace g) r => exact nameValueCheck_ok_or_fail name (.cons (.Group .Brace g) r)
    | .cons (.Group .Bracket g) r => exact nameValueCheck_ok_or_fail name (.cons (.Group .Bracket g) r)
    | .cons (.Group .NoDelim g) r => exact nameValueCheck_ok_or_fail name (.cons (.Group .NoDelim g) r)
    | .cons (.Term s) r => exact nameValueCheck_ok_or_fail name (.cons (.Term s) r)
    | .cons (.Op c sp) r => exact nameValueCheck_ok_or_fail name (.cons (.Op c sp) r)
    | .cons (.Lit l) r => exact nameValueCheck_ok_or_fail name (.cons (.Lit l) r)

/-- C3: when a separator is expected and the leading token is not a comma
with `Alone` spacing, the whole list parse fails with no partial result, and
the enclosing interpretation of `foo(bar baz)` declines. -/
theorem c3_separator_hard_failure :
    (∀ t rest, t ≠ .Op ',' .Alone → list_loop false (.cons t rest) = .fail) ∧
    (∀ ts n t rest, nested_meta_item_from_tokens ts = .ok (n, .cons t rest) →
      t ≠ .Op ',' .Alone → list_of_nested_meta_items_from_tokens ts = .fail) ∧
    interpret_meta ⟨.Outer, ⟨false, ["foo"]⟩,
      .cons (.Group .Parenthesis (tl [.Term "bar", .Term "baz"])) .nil, false⟩ = .fail := by
  refine ⟨list_loop_false_other, ?_, rfl⟩
  intro ts n t rest h hnc
  match ts with
  | .nil => exact PRes.noConfusion ((nested_eq_nil).symm.trans h)
  | .cons t0 r0 =>
    show list_loop true (.cons t0 r0) = .fail
    rw [list_loop_true_cons, h]
    dsimp only
    rw [list_loop_false_other t rest hnc]

theorem c3_witness :
    list_loop false (.cons (.Term "x") .nil) = .fail ∧
    list_of_nested_meta_items_from_tokens (tl [.Term "bar", .Term "baz"]) = .fail :=
  ⟨c3_separator_hard_failure.1 (.Term "x") .nil (fun h => Tok.noConfusion h),
   c3_separator_hard_failure.2.1 (tl [.Term "bar", .Term "baz"])
     (.Meta (.Word "bar")) (.Term "baz") .nil rfl (by simp)⟩

/-- C4: a single-segment-path attribute whose body is exactly one
parenthesized group interprets to `List` when the nested-list grammar
succeeds on the group interior, and falls through to the remaining checks
(ultimately declining) when it fails; `derive(Copy, Clone)` is the example. -/
theorem c4_parenthesized_group_interpretation :
    (∀ st lc name ts sugar items,
      list_of_nested_meta_items_from_tokens ts = .ok items →
      interpret_meta ⟨st, ⟨lc, [name]⟩, .cons (.Group .Parenthesis ts) .nil, sugar⟩ =
        .ok (.List name items)) ∧
    (∀ st lc name ts sugar,
      list_of_nested_meta_items_from_tokens ts = .fail →
      interpret_meta ⟨st, ⟨lc, [name]⟩, .cons (.Group .Parenthesis ts) .nil, sugar⟩ = .fail) ∧
    interpret_meta ⟨.Outer, ⟨false, ["derive"]⟩,
      .cons (.Group .Parenthesis (tl [.Term "Copy", .Op ',' .Alone, .Term "Clone"])) .nil,
      false⟩ = .ok (.List "derive" [.Meta (.Word "Copy"), .Meta (.Word "Clone")]) := by
  refine ⟨?_, ?_, rfl⟩
  · intro st lc name ts sugar items h
    rw [interpret_meta_group, h]
  · intro st lc name ts sugar h
    rw [interpret_meta_group, h]
    rfl

theorem c4_witness :
    interpret_meta ⟨.Outer, ⟨false, ["w"]⟩,
      .cons (.Group .Parenthesis (tl [.Term "X"])) .nil, false⟩ =
        .ok (.List "w" [.Meta (.Word "X")]) ∧
    interpret_meta ⟨.Outer, ⟨false, ["w"]⟩,
      .cons (.Group .Parenthesis (tl [.Term "X", .Term "Y"])) .nil, false⟩ = .fail :=
  ⟨c4_parenthesized_group_interpretation.1 .Outer false "w" _ false _ rfl,
   c4_parenthesized_group_interpretation.2.1 .Outer false "w" _ false rfl⟩

/-- C5: a single-segment-path attribute whose body is exactly a bare `=`
with `Alone` spacing followed by a literal interprets to `NameValue`;
`path = "sys/windows.rs"` is the example. -/
theorem c5_name_value_interpretation :
    (∀ st lc name sugar l,
      interpret_meta ⟨st, ⟨lc, [name]⟩, tl [.Op '=' .Alone, .Lit l], sugar⟩ =
        .ok (.NameValue name (Lit.new l))) ∧
    interpret_meta ⟨.Outer, ⟨false, ["path"]⟩,
      tl [.Op '=' .Alone, .Lit "\"sys/windows.rs\""], false⟩ =
      .ok (.NameValue "path" (.Str "sys/windows.rs")) :=
  ⟨fun _ _ _ _ _ => rfl, rfl⟩

/-- C6 counterexample: the claimed trailing-comma list parses to three
elements, not four. -/
theorem c6_counterexample :
    list_of_nested_meta_items_from_tokens c6Input = .ok c6Items ∧
    c6Items.length = 3 ∧ ¬ c6Items.length = 4 :=
  ⟨rfl, rfl, by decide⟩

/-- C6 (amended): the nested list `foo(bar = 1, baz(qux), "lit",)` parses to
the three elements `NameValue(bar,1)`, `List(baz,[Word(qux)])`,
`Literal("lit")`, the trailing comma being accepted without requiring a
further element; consuming a comma that turns out to be the last token
terminates the loop successfully. -/
theorem c6_trailing_comma_list :
    list_of_nested_meta_items_from_tokens c6Input = .ok c6Items ∧
    list_loop false (.cons (.Op ',' .Alone) .nil) = .ok [] :=
  ⟨rfl, rfl⟩

/-- C9: an identifier followed by a parenthesized group whose interior fails
the nested-list grammar makes the whole element parse fail; it does not fall
back to a bare word. -/
theorem c9_inner_list_failure_propagates (s : String) (inner r2 : TokList)
    (h : list_of_nested_meta_items_from_tokens inner = .fail) :
    nested_meta_item_from_tokens (.cons (.Term s) (.cons (.Group .Parenthesis inner) r2)) =
      .fail := by
  rw [nested_eq_group, h]

theorem c9_witness :
    list_of_nested_meta_items_from_tokens (tl [.Op '+' .Alone]) = .fail ∧
    nested_meta_item_from_tokens
      (tl [.Term "a", .Group .Parenthesis (tl [.Op '+' .Alone])]) = .fail :=
  ⟨rfl, c9_inner_list_failure_propagates "a" (tl [.Op '+' .Alone]) .nil rfl⟩

/-- C10: an identifier followed by a bare `=` whose next token is not a
literal parses as a bare word consuming only the identifier, leaving the `=`
in the remaining slice; the enclosing list grammar then fails on the
leftover `=`, and interpretation of a body like `(bar = baz)` declines. -/
theorem c10_eq_nonliteral_word_fallback :
    (∀ s t rest, (∀ l, t ≠ .Lit l) →
      nested_meta_item_from_tokens
          (.cons (.Term s) (.cons (.Op '=' .Alone) (.cons t rest))) =
        .ok (.Meta (.Word s), .cons (.Op '=' .Alone) (.cons t rest)) ∧
      list_of_nested_meta_items_from_tokens
          (.cons (.Term s) (.cons (.Op '=' .Alone) (.cons t rest))) = .fail) ∧
    interpret_meta ⟨.Outer, ⟨false, ["foo"]⟩,
      .cons (.Group .Parenthesis (tl [.Term "bar", .Op '=' .Alone, .Term "baz"])) .nil,
      false⟩ = .fail := by
  refine ⟨?_, rfl⟩
  intro s t rest h
  have hword : nested_meta_item_from_tokens
      (.cons (.Term s) (.cons (.Op '=' .Alone) (.cons t rest))) =
      .ok (.Meta (.Word s), .cons (.Op '=' .Alone) (.cons t rest)) := by
    cases t with
    | Lit l => exact absurd rfl (h l)
    | Term s2 => rfl
    | Op c sp => rfl
    | Group d i => rfl
  refine ⟨hword, ?_⟩
  show list_loop true _ = .fail
  rw [list_loop_true_cons, hword]
  dsimp only
  rw [list_loop_false_other _ _ (by simp)]

theorem c10_witness :
    nested_meta_item_from_tokens (tl [.Term "bar", .Op '=' .Alone, .Term "baz"]) =
      .ok (.Meta (.Word "bar"), tl [.Op '=' .Alone, .Term "baz"]) ∧
    list_of_nested_meta_items_from_tokens (tl [.Term "bar", .Op '=' .Alone, .Term "baz"]) =
      .fail :=
  c10_eq_nonliteral_word_fallback.1 "bar" (.Term "baz") .nil
    (fun _ hh => Tok.noConfusion hh)

theorem unescapeBody_escape (cs : List Char) :
    unescapeBody (escapeChars cs ++ ['"']) = some cs := by
  induction cs with
  | nil => rfl
  | cons c cs ih =>
    simp only [escapeChars, escapeChar]
    by_cases hc : c = '"' ∨ c = '\\'
    · rw [if_pos hc]
      show unescapeBody ('\\' :: c :: (escapeChars cs ++ ['"'])) = some (c :: cs)
      rw [unescapeBody.eq_def]
      simp only [if_true]
      rw [ih]
      rfl
    · rw [if_neg hc]
      push_neg at hc
      show unescapeBody (c :: (escapeChars cs ++ ['"'])) = some (c :: cs)
      rw [unescapeBody.eq_def]
      simp only []
      rw [if_neg hc.2, if_neg hc.1, ih]
      rfl

theorem Lit_new_litString (s : String) : Lit.new (litStringRendered s) = .Str s := by
  show (match unescapeBody (escapeChars s.data ++ ['"']) with
      | some v => Lit.Str ⟨v⟩
      | none => Lit.Other (litStringRendered s)) = Lit.Str s
  rw [unescapeBody_escape]

theorem moreSegs_print : ∀ (ss : List String) (r rest : TokList), moreSegs r = (ss, rest) →
    moreSegs (tlAppend (printSegsTail ss) rest) = (ss, rest) := by
  intro ss
  induction ss with
  | nil =>
    intro r rest h
    have hr : rest = r := by
      rw [moreSegs.eq_def] at h
      split at h
      · split at h
        simp at h
      · simp only [Prod.mk.injEq] at h
        exact h.2.symm
    subst hr
    show moreSegs rest = ([], rest)
    exact h
  | cons s ss ih =>
    intro r rest h
    rw [moreSegs.eq_def] at h
    split at h
    · rename_i s' r'
      obtain ⟨a, b, heq⟩ : ∃ a b, moreSegs r' = (a, b) := ⟨_, _, rfl⟩
      simp only [heq, Prod.mk.injEq, List.cons.injEq] at h
      obtain ⟨⟨h1, h2⟩, h3⟩ := h
      rw [h2, h3] at heq
      rw [← h1]
      show (match moreSegs (tlAppend (printSegsTail ss) rest) with
          | (segs, r2) => (s' :: segs, r2)) = (s' :: ss, rest)
      rw [ih _ _ heq]
    · simp at h

theorem parse_mod_style_print {input : TokList} {p : Path} {rest : TokList}
    (h : parse_mod_style input = some (p, rest)) :
    parse_mod_style (tlAppend (printPath p) rest) = some (p, rest) := by
  rw [parse_mod_style.eq_def] at h
  split at h
  · split at h
    · rename_i s r
      obtain ⟨a, b, heq⟩ : ∃ a b, moreSegs r = (a, b) := ⟨_, _, rfl⟩
      simp only [heq, Option.some.injEq, Prod.mk.injEq] at h
      obtain ⟨hpath, hrest⟩ := h
      subst hpath
      subst hrest
      show parse_mod_style (.cons (.Op ':' .Joint) (.cons (.Op ':' .Alone)
          (.cons (.Term s) (tlAppend (printSegsTail a) b)))) = _
      rw [parse_mod_style.eq_def]
      show (match moreSegs (tlAppend (printSegsTail a) b) with
          | (segs, r2) => some (Path.mk true (s :: segs), r2)) =
        some (Path.mk true (s :: a), b)
      rw [moreSegs_print a r b heq]
    · exact Option.noConfusion h
  · rename_i s r
    obtain ⟨a, b, heq⟩ : ∃ a b, moreSegs r = (a, b) := ⟨_, _, rfl⟩
    simp only [heq, Option.some.injEq, Prod.mk.injEq] at h
    obtain ⟨hpath, hrest⟩ := h
    subst hpath
    subst hrest
    show parse_mod_style (.cons (.Term s) (tlAppend (printSegsTail a) b)) = _
    rw [parse_mod_style.eq_def]
    show (match moreSegs (tlAppend (printSegsTail a) b) with
        | (segs, r2) => some (Path.mk false (s :: segs), r2)) =
      some (Path.mk false (s :: a), b)
    rw [moreSegs_print a r b heq]
  · exact Option.noConfusion h

theorem parse_outer_bracket_inv {input : TokList} {a : Attribute} {rest : TokList}
    (h : parse_outer_bracket input = some (a, rest)) :
    a.style = .Outer ∧ a.is_sugared_doc = false ∧
      ∃ inner, parse_mod_style inner = some (a.path, a.tts) := by
  rw [parse_outer_bracket.eq_def] at h
  split at h
  · rename_i inner rest2
    cases hp : parse_mod_style inner with
    | some pr =>
      obtain ⟨p, tts⟩ := pr
      rw [hp] at h
      simp only [Option.some.injEq, Prod.mk.injEq] at h
      obtain ⟨ha, hrest⟩ := h
      subst ha
      exact ⟨rfl, rfl, inner, hp⟩
    | none => rw [hp] at h; exact Option.noConfusion h
  · exact Option.noConfusion h

theorem parse_inner_bracket_inv {input : TokList} {a : Attribute} {rest : TokList}
    (h : parse_inner_bracket input = some (a, rest)) :
    a.style = .Inner ∧ a.is_sugared_doc = false ∧
      ∃ inner, parse_mod_style inner = some (a.path, a.tts) := by
  rw [parse_inner_bracket.eq_def] at h
  split at h
  · rename_i inner rest2
    cases hp : parse_mod_style inner with
    | some pr =>
      obtain ⟨p, tts⟩ := pr
      rw [hp] at h
      simp only [Option.some.injEq, Prod.mk.injEq] at h
      obtain ⟨ha, hrest⟩ := h
      subst ha
      exact ⟨rfl, rfl, inner, hp⟩
    | none => rw [hp] at h; exact Option.noConfusion h
  · exact Option.noConfusion h

theorem lit_doc_comment_inv {input : TokList} {style : Comment} {lit : Tok} {rest : TokList}
    (h : lit_doc_comment input style = some (lit, rest)) :
    ∃ s, input = .cons (.Lit s) rest ∧ docCommentOk style s = true ∧
      lit = .Lit (litStringRendered s) := by
  rw [lit_doc_comment.eq_def] at h
  split at h
  · rename_i s rest'
    split at h
    · rename_i hok
      simp only [Option.some.injEq, Prod.mk.injEq] at h
      obtain ⟨hlit, hrest⟩ := h
      subst hrest
      exact ⟨s, rfl, hok, hlit.symm⟩
    · exact Option.noConfusion h
  · exact Option.noConfusion h

theorem parse_outer_generalForm {inner : TokList} {p : Path} {tts : TokList}
    (hp : parse_mod_style inner = some (p, tts)) :
    parse_outer (generalForm ⟨.Outer, p, tts, false⟩) = some (⟨.Outer, p, tts, false⟩, .nil) := by
  have hb : parse_outer_bracket
      (.cons (.Op '#' .Alone) (.cons (.Group .Bracket (tlAppend (printPath p) tts)) .nil)) =
      some (⟨.Outer, p, tts, false⟩, .nil) := by
    show (match parse_mod_style (tlAppend (printPath p) tts) with
      | some (p', tts') => some ((⟨.Outer, p', tts', false⟩ : Attribute), TokList.nil)
      | none => none) = some (⟨.Outer, p, tts, false⟩, .nil)
    rw [parse_mod_style_print hp]
  show parse_outer (.cons (.Op '#' .Alone)
      (.cons (.Group .Bracket (tlAppend (printPath p) tts)) .nil)) = _
  rw [parse_outer.eq_def, hb]

theorem parse_inner_generalForm {inner : TokList} {p : Path} {tts : TokList}
    (hp : parse_mod_style inner = some (p, tts)) :
    parse_inner (generalForm ⟨.Inner, p, tts, false⟩) = some (⟨.Inner, p, tts, false⟩, .nil) := by
  have hb : parse_inner_bracket
      (.cons (.Op '#' .Alone) (.cons (.Op '!' .Alone)
        (.cons (.Group .Bracket (tlAppend (printPath p) tts)) .nil))) =
      some (⟨.Inner, p, tts, false⟩, .nil) := by
    show (match parse_mod_style (tlAppend (printPath p) tts) with
      | some (p', tts') => some ((⟨.Inner, p', tts', false⟩ : Attribute), TokList.nil)
      | none => none) = some (⟨.Inner, p, tts, false⟩, .nil)
    rw [parse_mod_style_print hp]
  show parse_inner (.cons (.Op '#' .Alone) (.cons (.Op '!' .Alone)
      (.cons (.Group .Bracket (tlAppend (printPath p) tts)) .nil))) = _
  rw [parse_inner.eq_def, hb]

theorem parse_outer_doc {s : String} (rest : TokList) (hpre : docCommentOk .Outer s = true) :
    parse_outer (.cons (.Lit s) rest) =
      some (docAttribute .Outer (.Lit (litStringRendered s)), rest) := by
  rw [parse_outer.eq_def]
  have hb : parse_outer_bracket (.cons (.Lit s) rest) = none := rfl
  rw [hb]
  show (match lit_doc_comment (.cons (.Lit s) rest) .Outer with
    | some (lit, r) => some (docAttribute .Outer lit, r)
    | none => none) = _
  rw [lit_doc_comment.eq_def]
  show (match (if docCommentOk .Outer s then
        some ((Tok.Lit (litStringRendered s) : Tok), rest) else none) with
    | some (lit, r) => some (docAttribute .Outer lit, r)
    | none => none) = _
  rw [if_pos hpre]

theorem parse_inner_doc {s : String} (rest : TokList) (hpre : docCommentOk .Inner s = true) :
    parse_inner (.cons (.Lit s) rest) =
      some (docAttribute .Inner (.Lit (litStringRendered s)), rest) := by
  rw [parse_inner.eq_def]
  have hb : parse_inner_bracket (.cons (.Lit s) rest) = none := rfl
  rw [hb]
  show (match lit_doc_comment (.cons (.Lit s) rest) .Inner with
    | some (lit, r) => some (docAttribute .Inner lit, r)
    | none => none) = _
  rw [lit_doc_comment.eq_def]
  show (match (if docCommentOk .Inner s then
        some ((Tok.Lit (litStringRendered s) : Tok), rest) else none) with
    | some (lit, r) => some (docAttribute .Inner lit, r)
    | none => none) = _
  rw [if_pos hpre]

theorem to_tokens_general {a : Attribute} (h : a.is_sugared_doc = false) :
    Attribute.to_tokens a = generalForm a := by
  rw [Attribute.to_tokens, h]
  rfl

theorem to_tokens_doc (st : AttrStyle) (s : String) :
    Attribute.to_tokens (docAttribute st (.Lit (litStringRendered s))) =
      .cons (.Lit s) .nil := by
  show (match Lit.new (litStringRendered s) with
      | Lit.Str comment => TokList.cons (Tok.Lit comment) TokList.nil
      | Lit.Other _ => generalForm (docAttribute st (.Lit (litStringRendered s)))) =
    TokList.cons (Tok.Lit s) TokList.nil
  rw [Lit_new_litString]

/-- C1: printing any attribute produced by the outer or inner parser and
re-parsing the printed tokens with the same-style parser reproduces the
attribute exactly (spans being dropped from the embedding, equality is
field-wise equality ignoring position metadata); in particular a sugared doc
attribute reproduces its `is_sugared_doc` flag, path and body. -/
theorem c1_print_parse_round_trip (input : TokList) (a : Attribute) (rest : TokList) :
    (parse_outer input = some (a, rest) →
      parse_outer (Attribute.to_tokens a) = some (a, .nil)) ∧
    (parse_inner input = some (a, rest) →
      parse_inner (Attribute.to_tokens a) = some (a, .nil)) := by
  constructor
  · intro h
    rw [parse_outer.eq_def] at h
    cases hb : parse_outer_bracket input with
    | some r =>
      rw [hb] at h
      simp only [Option.some.injEq] at h
      subst h
      obtain ⟨hst, hsug, inner, hp⟩ := parse_outer_bracket_inv hb
      obtain ⟨st, p, tts, sug⟩ := a
      simp only at hst hsug hp
      subst hst
      subst hsug
      rw [to_tokens_general rfl]
      exact parse_outer_generalForm hp
    | none =>
      rw [hb] at h
      simp only [] at h
      cases hd : lit_doc_comment input .Outer with
      | some pr =>
        obtain ⟨lit, r⟩ := pr
        rw [hd] at h
        simp only [Option.some.injEq, Prod.mk.injEq] at h
        obtain ⟨ha, hrest⟩ := h
        subst ha
        obtain ⟨s, hinput, hok, hlit⟩ := lit_doc_comment_inv hd
        subst hlit
        rw [to_tokens_doc .Outer s]
        exact parse_outer_doc .nil hok
      | none => rw [hd] at h; exact Option.noConfusion h
  · intro h
    rw [parse_inner.eq_def] at h
    cases hb : parse_inner_bracket input with
    | some r =>
      rw [hb] at h
      simp only [Option.some.injEq] at h
      subst h
      obtain ⟨hst, hsug, inner, hp⟩ := parse_inner_bracket_inv hb
      obtain ⟨st, p, tts, sug⟩ := a
      simp only at hst hsug hp
      subst hst
      subst hsug
      rw [to_tokens_general rfl]
      exact parse_inner_generalForm hp
    | none =>
      rw [hb] at h
      simp only [] at h
      cases hd : lit_doc_comment input .Inner with
      | some pr =>
        obtain ⟨lit, r⟩ := pr
        rw [hd] at h
        simp only [Option.some.injEq, Prod.mk.injEq] at h
        obtain ⟨ha, hrest⟩ := h
        subst ha
        obtain ⟨s, hinput, hok, hlit⟩ := lit_doc_comment_inv hd
        subst hlit
        rw [to_tokens_doc .Inner s]
        exact parse_inner_doc .nil hok
      | none => rw [hd] at h; exact Option.noConfusion h

theorem c1_witness :
    parse_outer (Attribute.to_tokens
        ⟨.Outer, ⟨false, ["test"]⟩, .nil, false⟩) =
      some (⟨.Outer, ⟨false, ["test"]⟩, .nil, false⟩, .nil) :=
  (c1_print_parse_round_trip
    (tl [.Op '#' .Alone, .Group .Bracket (tl [.Term "test"])])
    ⟨.Outer, ⟨false, ["test"]⟩, .nil, false⟩ .nil).1 rfl

/-- C7: a single literal token whose rendered text begins with "///" or
"/**" parses (outer style) to the doc attribute: style Outer, path `doc`,
body `= <string literal>`, `is_sugared_doc` true, where the string literal
quotes the ENTIRE rendered text of the original literal (a purely textual
prefix match, no substring extraction). -/
theorem c7_outer_doc_desugaring (s : String) (rest : TokList)
    (h : (strStartsWith s "///" || strStartsWith s "/**") = true) :
    parse_outer (.cons (.Lit s) rest) =
      some (docAttribute .Outer (.Lit (litStringRendered s)), rest) ∧
    Lit.new (litStringRendered s) = .Str s :=
  ⟨parse_outer_doc rest h, Lit_new_litString s⟩

theorem c7_witness :
    parse_outer (.cons (.Lit "/// hi") .nil) =
      some (docAttribute .Outer (.Lit (litStringRendered "/// hi")), .nil) ∧
    Lit.new (litStringRendered "/// hi") = .Str "/// hi" :=
  c7_outer_doc_desugaring "/// hi" .nil (by decide)

/-- C8 counterexample: parsing the doc comment `/// hello` yields a body
whose string literal quotes the whole text `/// hello`; the body claimed by
the specification, whose literal is `" hello"`, is not the parse result. -/
theorem c8_counterexample :
    parse_outer (tl [.Lit "/// hello"]) =
      some (docAttribute .Outer (.Lit "\"/// hello\""), .nil) ∧
    (docAttribute .Outer (.Lit "\"/// hello\"")).tts ≠
      .cons (.Op '=' .Alone) (.cons (.Lit "\" hello\"") .nil) := by
  refine ⟨rfl, ?_⟩
  intro hcontra
  injection hcontra with h1 h2
  injection h2 with h3 h4
  injection h3 with h5
  exact absurd h5 (by decide)

/-- C8 (amended): parsing `/// hello` as an outer annotation yields
Annotation{style=Outer, path="doc", body=["=", "\"/// hello\""],
is_sugared_doc=true} — the string literal's content is the whole comment
text `/// hello` — and printing that annotation re-emits exactly the doc
comment `/// hello`. -/
theorem c8_doc_hello_round_trip :
    parse_outer (tl [.Lit "/// hello"]) =
      some (docAttribute .Outer (.Lit "\"/// hello\""), .nil) ∧
    Lit.new "\"/// hello\"" = .Str "/// hello" ∧
    Attribute.to_tokens (docAttribute .Outer (.Lit "\"/// hello\"")) =
      tl [.Lit "/// hello"] :=
  ⟨rfl, rfl, rfl⟩

end Syn
